import Mathlib

/-!
Verification development for the Dimi_Kensho SEC-EDGAR XBRL pipeline.

The Python sources are shallowly embedded here:

* Python strings are modelled as `List Char` (`Str`); `str.lower()` is
  modelled per ASCII character by `lowerChar` (the tags, ids and namespace
  names handled by the pipeline are ASCII).
* Python dicts are modelled as association lists with insertion-order
  semantics (`dictInsert` overwrites in place, appends new keys at the end),
  matching CPython dict behaviour.
* Calendar dates (always handled by the sources in `%Y-%m-%d` form and either
  passed through verbatim or compared after `strptime`) are modelled by their
  proleptic day number as an integer, so `timedelta(days = 10)` is `+ 10` and
  date comparison is integer comparison.

Embedded functions keep the names of their Python sources:
`remove_namespace` (sec_fetcher.py / financial_translator.py),
`create_context_period_mapping` (utils.py), `extract_latest_context_ids`
(the id set selected by `FinancialTranslator._extract_latest_context`),
`get_xbrl_data`'s fact construction (sec_fetcher.py) and
`create_hierarchy_json` (sec_fetcher.py).
-/

namespace DimiKensho

/-- Python strings, as lists of characters. -/
abbrev Str := List Char

/-- `str.lower()` on one ASCII character: `'A'..'Z'` (codes 65..90) map to
`'a'..'z'` (codes 97..122); everything else is unchanged. -/
def lowerChar (c : Char) : Char :=
  if 65 ≤ c.toNat ∧ c.toNat ≤ 90 then Char.ofNat (c.toNat + 32) else c

/-- `str.lower()` on a whole string. -/
def strLower (s : Str) : Str := s.map lowerChar

/-- Python `s.split(sep, 1)`: `none` when `sep` does not occur, otherwise
the part before the first occurrence and the part after it. -/
def splitFirst (sep : Char) : Str → Option (Str × Str)
  | [] => none
  | c :: cs =>
    if c = sep then some ([], cs)
    else
      match splitFirst sep cs with
      | none => none
      | some p => some (c :: p.1, p.2)

/-- Association-list lookup, modelling `d[k]` / `d.get(k)`. -/
def alookup {β : Type} (m : List (Str × β)) (k : Str) : Option β :=
  match m with
  | [] => none
  | (k', v) :: rest => if k' = k then some v else alookup rest k

/-- Membership of a key, modelling `k in d`. -/
def hasKey {β : Type} (m : List (Str × β)) (k : Str) : Bool :=
  (alookup m k).isSome

/-- CPython dict assignment `d[k] = v`: overwrite in place if the key is
present, otherwise append at the end (insertion order preserved). -/
def dictInsert {β : Type} (k : Str) (v : β) : List (Str × β) → List (Str × β)
  | [] => [(k, v)]
  | (k', v') :: rest =>
    if k' = k then (k, v) :: rest else (k', v') :: dictInsert k v rest

/-- `d.get(k, default)`. -/
def getDflt {β : Type} (m : List (Str × β)) (k : Str) (d : β) : β :=
  (alookup m k).getD d

-- ort_basic_lemmas: characters -----------------------------------------------

theorem char_toNat_ofNat (n : ℕ) (h : n.isValidChar) : (Char.ofNat n).toNat = n := by
  simp [Char.ofNat, h, Char.ofNatAux, Char.toNat]
  rfl

theorem lowerChar_toNat_of_upper {c : Char} (h₁ : 65 ≤ c.toNat) (h₂ : c.toNat ≤ 90) :
    (lowerChar c).toNat = c.toNat + 32 := by
  have hv : Nat.isValidChar (c.toNat + 32) := Or.inl (by omega)
  simp only [lowerChar, if_pos (And.intro h₁ h₂)]
  exact char_toNat_ofNat _ hv

theorem lowerChar_of_not_upper {c : Char} (h : ¬(65 ≤ c.toNat ∧ c.toNat ≤ 90)) :
    lowerChar c = c := by
  simp only [lowerChar, if_neg h]

theorem lowerChar_idem (c : Char) : lowerChar (lowerChar c) = lowerChar c := by
  by_cases h : 65 ≤ c.toNat ∧ c.toNat ≤ 90
  · have ht : (lowerChar c).toNat = c.toNat + 32 := lowerChar_toNat_of_upper h.1 h.2
    have : ¬(65 ≤ (lowerChar c).toNat ∧ (lowerChar c).toNat ≤ 90) := by omega
    exact lowerChar_of_not_upper this
  · rw [lowerChar_of_not_upper h, lowerChar_of_not_upper h]

/-- Lowercasing cannot produce a character of code below 97 (such as the
separators `':'`, `'_'`, `'-'`) out of a different character. -/
theorem lowerChar_ne_of_lt {c sep : Char} (hs : sep.toNat < 97) (hc : c ≠ sep) :
    lowerChar c ≠ sep := by
  intro he
  by_cases h : 65 ≤ c.toNat ∧ c.toNat ≤ 90
  · have ht : (lowerChar c).toNat = c.toNat + 32 := lowerChar_toNat_of_upper h.1 h.2
    have := congrArg Char.toNat he
    omega
  · rw [lowerChar_of_not_upper h] at he
    exact hc he

theorem strLower_strLower (s : Str) : strLower (strLower s) = strLower s := by
  simp only [strLower, List.map_map]
  exact List.map_congr_left (fun c _ => lowerChar_idem c)

theorem not_mem_strLower {s : Str} {sep : Char} (hs : sep.toNat < 97) (h : sep ∉ s) :
    sep ∉ strLower s := by
  intro hmem
  rcases List.mem_map.mp hmem with ⟨a, ha, hla⟩
  exact lowerChar_ne_of_lt hs (fun hEq => h (hEq ▸ ha)) hla

theorem splitFirst_eq_none_iff (sep : Char) (s : Str) :
    splitFirst sep s = none ↔ sep ∉ s := by
  induction s with
  | nil => simp [splitFirst]
  | cons c cs ih =>
    by_cases hc : c = sep
    · subst hc
      simp [splitFirst]
    · simp only [splitFirst, if_neg hc]
      cases hsp : splitFirst sep cs with
      | none =>
        simp only [List.mem_cons]
        constructor
        · intro _ hor
          rcases hor with h1 | h2
          · exact hc h1.symm
          · exact (ih.mp hsp) h2
        · intro _; trivial
      | some p =>
        simp only [List.mem_cons]
        constructor
        · intro h; exact absurd h (by simp)
        · intro hcon
          exfalso
          have : sep ∈ cs := by
            by_contra hn
            rw [ih.mpr hn] at hsp
            exact Option.noConfusion hsp
          exact hcon (Or.inr this)

theorem splitFirst_append {sep : Char} {p : Str} (n : Str) (hp : sep ∉ p) :
    splitFirst sep (p ++ sep :: n) = some (p, n) := by
  induction p with
  | nil => simp [splitFirst]
  | cons c cs ih =>
    have hc : c ≠ sep := fun h => hp (h ▸ List.mem_cons_self c cs)
    have hcs : sep ∉ cs := fun h => hp (List.mem_cons_of_mem c h)
    simp only [List.cons_append, splitFirst, if_neg hc]
    rw [show cs.append (sep :: n) = cs ++ sep :: n from rfl, ih hcs]

-- Namespace Normalizer (sec_fetcher.py:600-634, duplicated verbatim at
-- financial_translator.py:27-61) ---------------------------------------------

/-- `ns_patterns['standard']` from `remove_namespace`. -/
def nsStandard : List Str :=
  ["us-gaap".toList, "usgaap".toList, "us".toList, "gaap".toList,
   "dei".toList, "srt".toList]

/-- `ns_patterns['international']` from `remove_namespace`. -/
def nsInternational : List Str :=
  ["ifrs".toList, "country".toList, "currency".toList]

/-- `ns_patterns['other']` from `remove_namespace`. -/
def nsOther : List Str :=
  ["invest".toList, "risk".toList, "ref".toList, "ecd".toList]

/-- All recognized namespace patterns; the underscore branch of
`remove_namespace` iterates over every category of `ns_patterns`, so the
union is what matters for its membership test. -/
def nsAll : List Str := nsStandard ++ nsInternational ++ nsOther

/-- Hyphen branch of `remove_namespace` (sec_fetcher.py:628-634): split at
the first `'-'`; if the lowered first part is a standard pattern return the
lowered remainder, otherwise return the whole tag lowered. -/
def hyphenBranch (tag : Str) : Str :=
  match splitFirst '-' tag with
  | some p => if strLower p.1 ∈ nsStandard then strLower p.2 else strLower tag
  | none => strLower tag

/-- `SECFetcher.remove_namespace` (sec_fetcher.py:600-634): strip a
namespace from a tag.  Colon: split once and return the lowered remainder
unconditionally.  Underscore: split once and return the lowered remainder
when the lowered first part is any recognized pattern; otherwise fall
through to the hyphen branch, as in the source, and finally return the
lowered tag unchanged. -/
def remove_namespace (tag : Str) : Str :=
  match splitFirst ':' tag with
  | some p => strLower p.2
  | none =>
    match splitFirst '_' tag with
    | some p => if strLower p.1 ∈ nsAll then strLower p.2 else hyphenBranch tag
    | none => hyphenBranch tag

theorem remove_namespace_of_no_sep {s : Str}
    (hc : ':' ∉ s) (hu : '_' ∉ s) (hh : '-' ∉ s) :
    remove_namespace s = strLower s := by
  unfold remove_namespace hyphenBranch
  rw [(splitFirst_eq_none_iff ':' s).mpr hc,
      (splitFirst_eq_none_iff '_' s).mpr hu,
      (splitFirst_eq_none_iff '-' s).mpr hh]

/-- Patterns contain no separator characters (checked on the literal
pattern lists). -/
theorem nsAll_no_sep : ∀ s ∈ nsAll, ':' ∉ s ∧ '_' ∉ s := by decide

theorem not_colon_mem_of_pattern {P : Str} (hP : strLower P ∈ nsAll) : ':' ∉ P := by
  intro h
  have : lowerChar ':' ∈ strLower P := List.mem_map_of_mem lowerChar h
  have hfix : lowerChar ':' = ':' := by decide
  rw [hfix] at this
  exact ((nsAll_no_sep _ hP).1) this

theorem not_underscore_mem_of_pattern {P : Str} (hP : strLower P ∈ nsAll) : '_' ∉ P := by
  intro h
  have : lowerChar '_' ∈ strLower P := List.mem_map_of_mem lowerChar h
  have hfix : lowerChar '_' = '_' := by decide
  rw [hfix] at this
  exact ((nsAll_no_sep _ hP).2) this

/-- On the normalizer's own output for a separator-free bare name, all
three separator searches fail. -/
theorem remove_namespace_strLower_fixed {N : Str}
    (hN : ∀ c ∈ N, c ≠ ':' ∧ c ≠ '_' ∧ c ≠ '-') :
    remove_namespace (strLower N) = strLower N := by
  have hc : ':' ∉ N := fun h => (hN _ h).1 rfl
  have hu : '_' ∉ N := fun h => (hN _ h).2.1 rfl
  have hh : '-' ∉ N := fun h => (hN _ h).2.2 rfl
  have hc2 : ':' ∉ strLower N := not_mem_strLower (by decide) hc
  have hu2 : '_' ∉ strLower N := not_mem_strLower (by decide) hu
  have hh2 : '-' ∉ strLower N := not_mem_strLower (by decide) hh
  rw [remove_namespace_of_no_sep hc2 hu2 hh2, strLower_strLower]

/-- C5 counterexample.  With the recognized prefix `us-gaap`, the hyphen
separator and the bare name `Revenues`, one pass of the normalizer yields
`gaap-revenues` (the hyphen branch splits at the FIRST hyphen, matching the
standard pattern `us`), and a second pass strips again (`gaap` is itself a
standard pattern), yielding `revenues`.  The normalizer is therefore not
idempotent on `P + sep + N` for every recognized prefix, separator and bare
name. -/
theorem C5_counterexample :
    remove_namespace ("us-gaap-Revenues".toList) = "gaap-revenues".toList ∧
    remove_namespace (remove_namespace ("us-gaap-Revenues".toList)) ≠
      remove_namespace ("us-gaap-Revenues".toList) := by
  constructor
  · decide
  · decide

/-- C5 amended: idempotence of the Namespace Normalizer holds for the colon
and underscore separators — the two separators actually used to qualify
concepts (instance tags use `us-gaap:Name`, presentation-linkbase href
fragments use `us-gaap_Name`) — whenever the recognized prefix `P` lowers
to one of the pattern strings and the bare name `N` contains no separator
character (`':'`, `'_'`, `'-'`).  With the hyphen separator, or a bare name
containing a separator character, a second pass can strip again
(`C5_counterexample`). -/
theorem C5_amended (P N : Str) (hP : strLower P ∈ nsAll)
    (hN : ∀ c ∈ N, c ≠ ':' ∧ c ≠ '_' ∧ c ≠ '-') :
    remove_namespace (remove_namespace (P ++ ':' :: N)) =
      remove_namespace (P ++ ':' :: N) ∧
    remove_namespace (remove_namespace (P ++ '_' :: N)) =
      remove_namespace (P ++ '_' :: N) := by
  have hPc : ':' ∉ P := not_colon_mem_of_pattern hP
  have hPu : '_' ∉ P := not_underscore_mem_of_pattern hP
  have hNc : ':' ∉ N := fun h => (hN _ h).1 rfl
  constructor
  · have h1 : remove_namespace (P ++ ':' :: N) = strLower N := by
      unfold remove_namespace
      rw [splitFirst_append N hPc]
    rw [h1, remove_namespace_strLower_fixed hN]
  · have hcolon : ':' ∉ P ++ '_' :: N := by
      intro h
      rcases List.mem_append.mp h with h | h
      · exact hPc h
      · rcases List.mem_cons.mp h with h | h
        · exact absurd h (by decide)
        · exact hNc h
    have h1 : remove_namespace (P ++ '_' :: N) = strLower N := by
      unfold remove_namespace
      rw [(splitFirst_eq_none_iff ':' _).mpr hcolon, splitFirst_append N hPu]
      simp only [if_pos hP]
    rw [h1, remove_namespace_strLower_fixed hN]

/-- C5 witness: the amended idempotence theorem applied at the concrete
prefix `us-gaap` and bare name `Revenues`. -/
theorem C5_witness :
    remove_namespace (remove_namespace ("us-gaap".toList ++ ':' :: "Revenues".toList)) =
      remove_namespace ("us-gaap".toList ++ ':' :: "Revenues".toList) :=
  (C5_amended ("us-gaap".toList) ("Revenues".toList) (by decide) (by decide)).1

-- Context Resolver (utils.py:347-474, create_context_period_mapping) --------

/-- One entry of the resolved context map (`context_data.json`): either an
instant date or a period with start and end dates.  Dates are modelled by
their day number. -/
inductive CtxEntry where
  | instant (date : ℤ)
  | period (start_date end_date : ℤ)
deriving DecidableEq

/-- The nested period sub-element of a raw `<context>` element: an optional
`<instant>` child and optional `<startDate>`/`<endDate>` children, exactly
the three finds the resolver performs (utils.py:398-414). -/
structure RawPeriodEl where
  instant : Option ℤ
  startDate : Option ℤ
  endDate : Option ℤ
deriving DecidableEq

/-- A raw `<context>` element: its `id` attribute and its optional period
sub-element. -/
structure RawContext where
  id : Str
  period : Option RawPeriodEl
deriving DecidableEq

/-- ASCII decimal digit. -/
def isDigitChar (c : Char) : Bool := 48 ≤ c.toNat ∧ c.toNat ≤ 57

/-- The regex `^c-\d+$` of utils.py:390: a literal `c`, a hyphen, then one
or more digits. -/
def isValidCtxId : Str → Bool
  | 'c' :: '-' :: ds => !ds.isEmpty && ds.all isDigitChar
  | _ => false

/-- Resolution of a single `<context>` element (the body of the loop at
utils.py:387-414): contexts with an id not matching `^c-\d+$` or without a
period are skipped; an `<instant>` child wins over start/end; a context
with only one of start/end is skipped.  No date validation is performed. -/
def parseEntry (c : RawContext) : Option CtxEntry :=
  if isValidCtxId c.id then
    match c.period with
    | none => none
    | some p =>
      match p.instant with
      | some d => some (CtxEntry.instant d)
      | none =>
        match p.startDate, p.endDate with
        | some s, some e => some (CtxEntry.period s e)
        | _, _ => none
  else none

/-- One iteration of the resolver loop: `context_periods[ctx_id] = ...`
when the context resolves, nothing otherwise. -/
def stepCtx (m : List (Str × CtxEntry)) (c : RawContext) : List (Str × CtxEntry) :=
  match parseEntry c with
  | some entry => dictInsert c.id entry m
  | none => m

/-- The value of `int(ctx_id.split('-')[1])` (utils.py:451): the digit run
between the first and second hyphen, read as a number.  It is only ever
applied to keys matching `^c-\d+$`, for which it is the id's numeric
suffix. -/
def ctxNum (id : Str) : ℕ :=
  match splitFirst '-' id with
  | some p => (p.2.takeWhile (fun c => c ≠ '-')).foldl (fun n c => 10 * n + (c.toNat - 48)) 0
  | none => 0

/-- Stable insertion of one element into a key-sorted list: the element
goes after every element whose key is less than or equal to its own. -/
def insertSorted {α β : Type} [LinearOrder β] (key : α → β) (x : α) : List α → List α
  | [] => [x]
  | y :: ys => if key y ≤ key x then y :: insertSorted key x ys else x :: y :: ys

/-- Python's `sorted(l, key=key)`: a stable ascending sort by key,
modelled as stable insertion in encounter order. -/
def sortByKey {α β : Type} [LinearOrder β] (key : α → β) (l : List α) : List α :=
  l.foldl (fun acc x => insertSorted key x acc) []

/-- `create_context_period_mapping` (utils.py:347-474), restricted to its
computational core: resolve every context element in document order into
the `context_periods` dict, then sort the entries by the numeric suffix of
the context id (utils.py:451, `sorted(..., key=lambda x: int(x[0].split('-')[1]))`,
a stable ascending sort). -/
def create_context_period_mapping (ctxs : List RawContext) : List (Str × CtxEntry) :=
  sortByKey (fun kv => ctxNum kv.1) (ctxs.foldl stepCtx [])

theorem insertSorted_perm {α β : Type} [LinearOrder β] (key : α → β) (x : α) (l : List α) :
    (insertSorted key x l).Perm (x :: l) := by
  induction l with
  | nil => simp [insertSorted]
  | cons y ys ih =>
    by_cases h : key y ≤ key x
    · simp only [insertSorted, if_pos h]
      exact ((ih.cons y).trans (List.Perm.swap x y ys))
    · simp only [insertSorted, if_neg h]
      exact List.Perm.refl _

theorem foldl_insertSorted_perm {α β : Type} [LinearOrder β] (key : α → β) :
    ∀ (l acc : List α), (l.foldl (fun acc x => insertSorted key x acc) acc).Perm (acc ++ l) := by
  intro l
  induction l with
  | nil => intro acc; simp
  | cons x xs ih =>
    intro acc
    simp only [List.foldl_cons]
    refine (ih (insertSorted key x acc)).trans ?_
    have h1 : (insertSorted key x acc ++ xs).Perm ((x :: acc) ++ xs) :=
      (insertSorted_perm key x acc).append_right xs
    refine h1.trans ?_
    simpa using List.perm_middle.symm

theorem sortByKey_perm {α β : Type} [LinearOrder β] (key : α → β) (l : List α) :
    (sortByKey key l).Perm l := by
  simpa using foldl_insertSorted_perm key l []

theorem mem_insertSorted {α β : Type} [LinearOrder β] {key : α → β} {x z : α} {l : List α}
    (h : z ∈ insertSorted key x l) : z = x ∨ z ∈ l :=
  List.mem_cons.mp ((insertSorted_perm key x l).mem_iff.mp h)

theorem insertSorted_pairwise {α β : Type} [LinearOrder β] {key : α → β} {x : α} {l : List α}
    (h : l.Pairwise (fun a b => key a ≤ key b)) :
    (insertSorted key x l).Pairwise (fun a b => key a ≤ key b) := by
  induction l with
  | nil => simp [insertSorted]
  | cons y ys ih =>
    rcases List.pairwise_cons.mp h with ⟨hy, hys⟩
    by_cases hk : key y ≤ key x
    · simp only [insertSorted, if_pos hk]
      refine List.pairwise_cons.mpr ⟨?_, ih hys⟩
      intro z hz
      rcases mem_insertSorted hz with rfl | hz'
      · exact hk
      · exact hy z hz'
    · simp only [insertSorted, if_neg hk]
      refine List.pairwise_cons.mpr ⟨?_, h⟩
      intro z hz
      rcases List.mem_cons.mp hz with rfl | hz'
      · exact le_of_not_le hk
      · exact le_trans (le_of_not_le hk) (hy z hz')

theorem sortByKey_pairwise {α β : Type} [LinearOrder β] (key : α → β) (l : List α) :
    (sortByKey key l).Pairwise (fun a b => key a ≤ key b) := by
  suffices h : ∀ (l acc : List α), acc.Pairwise (fun a b => key a ≤ key b) →
      (l.foldl (fun acc x => insertSorted key x acc) acc).Pairwise
        (fun a b => key a ≤ key b) by
    exact h l [] (by simp)
  intro l
  induction l with
  | nil => intro acc h; simpa using h
  | cons x xs ih =>
    intro acc h
    simp only [List.foldl_cons]
    exact ih _ (insertSorted_pairwise h)

theorem mem_dictInsert {β : Type} {k : Str} {v : β} {m : List (Str × β)} {kv : Str × β}
    (h : kv ∈ dictInsert k v m) : kv = (k, v) ∨ kv ∈ m := by
  induction m with
  | nil => simpa [dictInsert] using h
  | cons hd tl ih =>
    by_cases hk : hd.1 = k
    · rw [show hd = (hd.1, hd.2) from rfl] at h
      simp only [dictInsert, if_pos hk] at h
      rcases List.mem_cons.mp h with h | h
      · exact Or.inl h
      · exact Or.inr (List.mem_cons_of_mem _ h)
    · rw [show hd = (hd.1, hd.2) from rfl] at h
      simp only [dictInsert, if_neg hk] at h
      rcases List.mem_cons.mp h with h | h
      · exact Or.inr (h ▸ List.mem_cons_self _ _)
      · rcases ih h with h | h
        · exact Or.inl h
        · exact Or.inr (List.mem_cons_of_mem _ h)

theorem mem_dictInsert_self {β : Type} (k : Str) (v : β) (m : List (Str × β)) :
    (k, v) ∈ dictInsert k v m := by
  induction m with
  | nil => simp [dictInsert]
  | cons hd tl ih =>
    rw [show hd = (hd.1, hd.2) from rfl]
    by_cases hk : hd.1 = k
    · simp [dictInsert, if_pos hk]
    · simp only [dictInsert, if_neg hk]
      exact List.mem_cons_of_mem _ ih

theorem mem_dictInsert_of_ne {β : Type} {k k' : Str} {v v' : β} {m : List (Str × β)}
    (hne : k' ≠ k) (h : (k', v') ∈ m) : (k', v') ∈ dictInsert k v m := by
  induction m with
  | nil => simp at h
  | cons hd tl ih =>
    obtain ⟨k₁, v₁⟩ := hd
    rcases List.mem_cons.mp h with heq | hmem
    · have h1 : k₁ = k' := (congrArg Prod.fst heq).symm
      by_cases hk : k₁ = k
      · exact absurd (h1 ▸ hk) hne
      · simp only [dictInsert, if_neg hk]
        exact heq ▸ List.mem_cons_self _ _
    · by_cases hk : k₁ = k
      · simp only [dictInsert, if_pos hk]
        exact List.mem_cons_of_mem _ hmem
      · simp only [dictInsert, if_neg hk]
        exact List.mem_cons_of_mem _ (ih hmem)

theorem mem_stepCtx_of_ne {k : Str} {v : CtxEntry} {m : List (Str × CtxEntry)}
    {c : RawContext} (hne : k ≠ c.id) (h : (k, v) ∈ m) : (k, v) ∈ stepCtx m c := by
  unfold stepCtx
  cases parseEntry c with
  | none => exact h
  | some entry => exact mem_dictInsert_of_ne hne h

theorem mem_foldl_stepCtx_of_ne {k : Str} {v : CtxEntry} :
    ∀ (ctxs : List RawContext) (m : List (Str × CtxEntry)),
    (∀ c ∈ ctxs, k ≠ c.id) → (k, v) ∈ m → (k, v) ∈ ctxs.foldl stepCtx m := by
  intro ctxs
  induction ctxs with
  | nil => intro m _ h; simpa using h
  | cons x rest ih =>
    intro m hall h
    simp only [List.foldl_cons]
    exact ih _ (fun c hc => hall c (List.mem_cons_of_mem x hc))
      (mem_stepCtx_of_ne (hall x (List.mem_cons_self x rest)) h)

theorem mem_foldl_stepCtx {c : RawContext} {entry : CtxEntry} :
    ∀ (ctxs : List RawContext) (m : List (Str × CtxEntry)),
    c ∈ ctxs → parseEntry c = some entry → (ctxs.map RawContext.id).Nodup →
    (c.id, entry) ∈ ctxs.foldl stepCtx m := by
  intro ctxs
  induction ctxs with
  | nil => intro m h; simp at h
  | cons x rest ih =>
    intro m hmem hparse hnodup
    simp only [List.map_cons, List.nodup_cons] at hnodup
    rcases List.mem_cons.mp hmem with heq | hmem'
    · subst heq
      simp only [List.foldl_cons]
      apply mem_foldl_stepCtx_of_ne rest (stepCtx m c)
      · intro c' hc' hid
        exact hnodup.1 (hid ▸ List.mem_map_of_mem RawContext.id hc')
      · unfold stepCtx
        rw [hparse]
        exact mem_dictInsert_self _ _ _
    · simp only [List.foldl_cons]
      exact ih _ hmem' hparse hnodup.2

theorem keys_valid_foldl_stepCtx :
    ∀ (ctxs : List RawContext) (m : List (Str × CtxEntry)),
    (∀ kv ∈ m, isValidCtxId kv.1 = true) →
    ∀ kv ∈ ctxs.foldl stepCtx m, isValidCtxId kv.1 = true := by
  intro ctxs
  induction ctxs with
  | nil => intro m h; simp only [List.foldl_nil]; exact h
  | cons x rest ih =>
    intro m h
    simp only [List.foldl_cons]
    apply ih
    intro kv hkv
    unfold stepCtx at hkv
    cases hp : parseEntry x with
    | none => rw [hp] at hkv; exact h kv hkv
    | some entry =>
      rw [hp] at hkv
      rcases mem_dictInsert hkv with heq | hmem
      · have hid : isValidCtxId x.id = true := by
          by_contra hno
          unfold parseEntry at hp
          rw [if_neg hno] at hp
          exact Option.noConfusion hp
        rw [heq]
        exact hid
      · exact h kv hmem

/-- C10: the Context Resolver's output map contains only keys matching
`c-` followed by digits (anything else is silently omitted), and its
entries are sorted in ascending order of the numeric suffix of the id. -/
theorem C10_resolver_keys_and_order (ctxs : List RawContext) :
    (∀ kv ∈ create_context_period_mapping ctxs, isValidCtxId kv.1 = true) ∧
    (create_context_period_mapping ctxs).Pairwise
      (fun a b => ctxNum a.1 ≤ ctxNum b.1) := by
  constructor
  · intro kv hkv
    have hperm := sortByKey_perm (fun kv : Str × CtxEntry => ctxNum kv.1)
      (ctxs.foldl stepCtx [])
    have hmem : kv ∈ ctxs.foldl stepCtx [] := hperm.mem_iff.mp hkv
    exact keys_valid_foldl_stepCtx ctxs [] (by simp) kv hmem
  · exact sortByKey_pairwise (fun kv : Str × CtxEntry => ctxNum kv.1)
      (ctxs.foldl stepCtx [])

/-- C10 witness: applying the resolver theorem at a concrete one-context
input shows the key of the produced entry is well-formed. -/
theorem C10_witness : isValidCtxId ("c-7".toList) = true :=
  (C10_resolver_keys_and_order
      [⟨"c-7".toList, some ⟨none, some 0, some 5⟩⟩]).1
    (("c-7".toList, CtxEntry.period 0 5)) (by decide)

/-- C9 counterexample: the resolver performs no `end_date >= start_date`
check.  A context whose duration ends 100 days before it starts is stored
in the output map unchanged, so the claimed invariant fails on the code. -/
theorem C9_counterexample :
    (("c-1".toList, CtxEntry.period 100 0) ∈
      create_context_period_mapping
        [⟨"c-1".toList, some ⟨none, some 100, some 0⟩⟩]) ∧
    ¬ (100 ≤ (0 : ℤ)) := by
  constructor
  · decide
  · decide

/-- C9 amended: the resolver does not validate periods at all — every
context with a well-formed id and both a start and an end date (and no
instant child) appears in the map with its dates passed through unchanged,
including when `end_date < start_date`. -/
theorem C9_amended (ctxs : List RawContext) (c : RawContext) (p : RawPeriodEl)
    (s e : ℤ) (hmem : c ∈ ctxs) (hid : isValidCtxId c.id = true)
    (hper : c.period = some p) (hinst : p.instant = none)
    (hs : p.startDate = some s) (he : p.endDate = some e)
    (hnodup : (ctxs.map RawContext.id).Nodup) :
    (c.id, CtxEntry.period s e) ∈ create_context_period_mapping ctxs := by
  have hparse : parseEntry c = some (CtxEntry.period s e) := by
    unfold parseEntry
    rw [if_pos hid, hper]
    simp only [hinst, hs, he]
  have hmemf : (c.id, CtxEntry.period s e) ∈ ctxs.foldl stepCtx [] :=
    mem_foldl_stepCtx ctxs [] hmem hparse hnodup
  have hperm := sortByKey_perm (fun kv : Str × CtxEntry => ctxNum kv.1)
    (ctxs.foldl stepCtx [])
  exact hperm.mem_iff.mpr hmemf

/-- C9 witness: the amended theorem applied to a concrete context whose
period ends before it starts. -/
theorem C9_witness :
    (("c-3".toList, CtxEntry.period 50 (-20)) ∈
      create_context_period_mapping
        [⟨"c-3".toList, some ⟨none, some 50, some (-20)⟩⟩]) :=
  C9_amended [⟨"c-3".toList, some ⟨none, some 50, some (-20)⟩⟩]
    ⟨"c-3".toList, some ⟨none, some 50, some (-20)⟩⟩
    ⟨none, some 50, some (-20)⟩ 50 (-20)
    (List.mem_singleton.mpr rfl) (by decide) rfl rfl rfl rfl (by simp)

-- Latest-Period Selector
-- (financial_translator.py:647-767, FinancialTranslator._extract_latest_context)

/-- The `period`-typed contexts of a context map, with their start and end
dates, in map order (financial_translator.py:669-677). -/
def periodsOf (l : List (Str × CtxEntry)) : List (Str × ℤ × ℤ) :=
  l.filterMap (fun kv =>
    match kv.2 with
    | CtxEntry.period s e => some (kv.1, s, e)
    | CtxEntry.instant _ => none)

/-- The `instant`-typed contexts of a context map, with their dates, in map
order. -/
def instantsOf (l : List (Str × CtxEntry)) : List (Str × ℤ) :=
  l.filterMap (fun kv =>
    match kv.2 with
    | CtxEntry.instant d => some (kv.1, d)
    | CtxEntry.period _ _ => none)

/-- `start_date_counter[d]` (financial_translator.py:679-684): how many
period contexts carry the start date `d`. -/
def startCount (l : List (Str × CtxEntry)) (d : ℤ) : ℕ :=
  ((periodsOf l).map (fun p => p.2.1)).count d

/-- `candidate_dates` (financial_translator.py:687): the start dates that
recur across at least 10 period contexts.  The list order is immaterial:
the code only takes the maximum. -/
def candidateStarts (l : List (Str × CtxEntry)) : List ℤ :=
  (((periodsOf l).map (fun p => p.2.1)).dedup).filter (fun d => 10 ≤ startCount l d)

/-- Python's `max(xs, key=...)` over a nonempty list, keyed by the end
date: scan left to right, replacing the current maximum only on a strictly
larger key, so the FIRST element with the maximal key wins. -/
def maxByEnd (x : Str × ℤ × ℤ) (xs : List (Str × ℤ × ℤ)) : Str × ℤ × ℤ :=
  xs.foldl (fun acc y => if acc.2.2 < y.2.2 then y else acc) x

/-- Step 5 of `_extract_latest_context` (financial_translator.py:732-743):
the ids of the period contexts whose start date or end date falls inside
`[lo, hi]`. -/
def durationIdsInWindow (l : List (Str × CtxEntry)) (lo hi : ℤ) : Finset Str :=
  (((periodsOf l).filter
      (fun p => (lo ≤ p.2.1 ∧ p.2.1 ≤ hi) ∨ (lo ≤ p.2.2 ∧ p.2.2 ≤ hi))).map
    (fun p => p.1)).toFinset

/-- Step 4 of `_extract_latest_context` (financial_translator.py:721-730):
the ids of the instant contexts whose date falls inside `[lo, hi]`. -/
def instantIdsInWindow (l : List (Str × CtxEntry)) (lo hi : ℤ) : Finset Str :=
  (((instantsOf l).filter (fun q => lo ≤ q.2 ∧ q.2 ≤ hi)).map
    (fun q => q.1)).toFinset

/-- Steps 4-6 of `_extract_latest_context` once the baseline context `bp`
has been chosen (financial_translator.py:716-752): the window is
`[bp.start, bp.end + 10]` and the result is the baseline id together with
the instant and period ids falling inside the window. -/
def includeWindow (l : List (Str × CtxEntry)) (bp : Str × ℤ × ℤ) : Finset Str :=
  insert bp.1
    (instantIdsInWindow l bp.2.1 (bp.2.2 + 10) ∪
     durationIdsInWindow l bp.2.1 (bp.2.2 + 10))

/-- The set of context ids selected by
`FinancialTranslator._extract_latest_context`
(financial_translator.py:647-767).  The function returns a list of context
dicts in Python-set iteration order; the claims are about the selected id
SET, which is what is modelled.  If no start date recurs at least 10 times
the function prints a message and returns the empty list (line 688-690);
otherwise the latest recurring start date is taken as baseline start, the
period with that start and the latest end date (first wins on ties) as
baseline context, and the ids inside the extended window are collected.
`selectorWithStart` is the part after the baseline start date is fixed
(financial_translator.py:697-752). -/
def selectorWithStart (l : List (Str × CtxEntry)) (bs : ℤ) : Finset Str :=
  match (periodsOf l).filter (fun p => p.2.1 = bs) with
  | [] => ∅
  | x :: xs => includeWindow l (maxByEnd x xs)

def extract_latest_context_ids (l : List (Str × CtxEntry)) : Finset Str :=
  match (candidateStarts l).max? with
  | none => ∅
  | some bs => selectorWithStart l bs

theorem extract_eq_of_none {l : List (Str × CtxEntry)}
    (h : (candidateStarts l).max? = none) :
    extract_latest_context_ids l = ∅ := by
  unfold extract_latest_context_ids
  rw [h]

theorem extract_eq_of_some {l : List (Str × CtxEntry)} {bs : ℤ}
    (h : (candidateStarts l).max? = some bs) :
    extract_latest_context_ids l = selectorWithStart l bs := by
  unfold extract_latest_context_ids
  rw [h]

theorem selectorWithStart_of_nil {l : List (Str × CtxEntry)} {bs : ℤ}
    (h : (periodsOf l).filter (fun p => p.2.1 = bs) = []) :
    selectorWithStart l bs = ∅ := by
  unfold selectorWithStart
  rw [h]

theorem selectorWithStart_of_cons {l : List (Str × CtxEntry)} {bs : ℤ}
    {x : Str × ℤ × ℤ} {xs : List (Str × ℤ × ℤ)}
    (h : (periodsOf l).filter (fun p => p.2.1 = bs) = x :: xs) :
    selectorWithStart l bs = includeWindow l (maxByEnd x xs) := by
  unfold selectorWithStart
  rw [h]

theorem int_max?_eq_some_iff (l : List ℤ) (a : ℤ) :
    l.max? = some a ↔ a ∈ l ∧ ∀ b ∈ l, b ≤ a := by
  haveI : Std.Antisymm (fun x1 x2 : ℤ => x1 ≤ x2) :=
    ⟨fun h1 h2 => le_antisymm h1 h2⟩
  exact List.max?_eq_some_iff (fun a => le_refl a) (fun a b => max_choice a b)
    (fun a b c => max_le_iff)

theorem maxByEnd_cons (x y : Str × ℤ × ℤ) (ys : List (Str × ℤ × ℤ)) :
    maxByEnd x (y :: ys) = maxByEnd (if x.2.2 < y.2.2 then y else x) ys := rfl

theorem maxByEnd_mem : ∀ (xs : List (Str × ℤ × ℤ)) (x : Str × ℤ × ℤ),
    maxByEnd x xs ∈ x :: xs := by
  intro xs
  induction xs with
  | nil => intro x; simp [maxByEnd]
  | cons y ys ih =>
    intro x
    rw [maxByEnd_cons]
    by_cases h : x.2.2 < y.2.2
    · rw [if_pos h]
      rcases List.mem_cons.mp (ih y) with h1 | h1
      · rw [h1]; exact List.mem_cons_of_mem _ (List.mem_cons_self _ _)
      · exact List.mem_cons_of_mem _ (List.mem_cons_of_mem _ h1)
    · rw [if_neg h]
      rcases List.mem_cons.mp (ih x) with h1 | h1
      · rw [h1]; exact List.mem_cons_self _ _
      · exact List.mem_cons_of_mem _ (List.mem_cons_of_mem _ h1)

theorem maxByEnd_ge : ∀ (xs : List (Str × ℤ × ℤ)) (x : Str × ℤ × ℤ),
    ∀ z ∈ x :: xs, z.2.2 ≤ (maxByEnd x xs).2.2 := by
  intro xs
  induction xs with
  | nil =>
    intro x z hz
    rcases List.mem_cons.mp hz with h | h
    · rw [h]; exact le_refl _
    · simp at h
  | cons y ys ih =>
    intro x z hz
    rw [maxByEnd_cons]
    have hw : ∀ w, w = (if x.2.2 < y.2.2 then y else x) →
        z.2.2 ≤ (maxByEnd w ys).2.2 := by
      intro w hwdef
      rcases List.mem_cons.mp hz with h1 | h1
      · have hx : x.2.2 ≤ w.2.2 := by
          rw [hwdef]
          by_cases h : x.2.2 < y.2.2
          · rw [if_pos h]; exact le_of_lt h
          · rw [if_neg h]
        have := ih w w (List.mem_cons_self _ _)
        rw [h1]
        exact le_trans hx this
      · rcases List.mem_cons.mp h1 with h2 | h2
        · have hy : y.2.2 ≤ w.2.2 := by
            rw [hwdef]
            by_cases h : x.2.2 < y.2.2
            · rw [if_pos h]
            · rw [if_neg h]; omega
          have := ih w w (List.mem_cons_self _ _)
          rw [h2]
          exact le_trans hy this
        · exact ih w z (List.mem_cons_of_mem _ h2)
    exact hw _ rfl

theorem mem_candidateStarts_iff (l : List (Str × CtxEntry)) (d : ℤ) :
    d ∈ candidateStarts l ↔ 10 ≤ startCount l d := by
  unfold candidateStarts
  rw [List.mem_filter]
  constructor
  · intro h
    simpa using h.2
  · intro h
    refine ⟨List.mem_dedup.mpr ?_, by simpa using h⟩
    have hpos : 0 < ((periodsOf l).map (fun p => p.2.1)).count d := by
      unfold startCount at h
      omega
    exact List.count_pos_iff.mp hpos

theorem perm_int_max? {l l' : List ℤ} (h : l.Perm l') : l.max? = l'.max? := by
  cases hm : l.max? with
  | none =>
    have hnil : l = [] := List.max?_eq_none_iff.mp hm
    subst hnil
    have hnil2 : l' = [] := h.symm.eq_nil
    rw [hnil2]
    exact hm.symm
  | some a =>
    obtain ⟨hmem, hub⟩ := (int_max?_eq_some_iff _ _).mp hm
    exact ((int_max?_eq_some_iff _ _).mpr
      ⟨h.mem_iff.mp hmem, fun b hb => hub b (h.mem_iff.mpr hb)⟩).symm

theorem mem_durationIdsInWindow {l : List (Str × CtxEntry)} {lo hi : ℤ}
    {p : Str × ℤ × ℤ} (hp : p ∈ periodsOf l)
    (hcond : (lo ≤ p.2.1 ∧ p.2.1 ≤ hi) ∨ (lo ≤ p.2.2 ∧ p.2.2 ≤ hi)) :
    p.1 ∈ durationIdsInWindow l lo hi := by
  unfold durationIdsInWindow
  rw [List.mem_toFinset]
  exact List.mem_map.mpr ⟨p, List.mem_filter.mpr ⟨hp, by simpa using hcond⟩, rfl⟩

/-- Once the baseline has been chosen, the explicit `final_ids.add` of the
baseline id (financial_translator.py:748) is redundant whenever the
baseline period satisfies the data-model invariant `start <= end`: its own
start date then falls inside the window, so it is already collected by the
period-inclusion loop. -/
theorem includeWindow_eq {l : List (Str × CtxEntry)} {bp : Str × ℤ × ℤ}
    (hmem : bp ∈ periodsOf l) (hle : bp.2.1 ≤ bp.2.2) :
    includeWindow l bp =
      instantIdsInWindow l bp.2.1 (bp.2.2 + 10) ∪
        durationIdsInWindow l bp.2.1 (bp.2.2 + 10) := by
  unfold includeWindow
  exact Finset.insert_eq_self.mpr
    (Finset.mem_union_right _
      (mem_durationIdsInWindow hmem (Or.inl ⟨le_refl _, by omega⟩)))

/-- The selector returns the empty set exactly when no start date recurs
across at least 10 period contexts. -/
theorem extract_eq_empty_iff (l : List (Str × CtxEntry)) :
    extract_latest_context_ids l = ∅ ↔ ∀ d : ℤ, startCount l d < 10 := by
  constructor
  · intro h
    by_contra hn
    push_neg at hn
    obtain ⟨d, hd⟩ := hn
    have hmemd : d ∈ candidateStarts l := (mem_candidateStarts_iff l d).mpr hd
    cases hmax : (candidateStarts l).max? with
    | none =>
      rw [List.max?_eq_none_iff.mp hmax] at hmemd
      simp at hmemd
    | some bs =>
      obtain ⟨hbsmem, _⟩ := (int_max?_eq_some_iff _ _).mp hmax
      have hbs10 : 10 ≤ startCount l bs := (mem_candidateStarts_iff l bs).mp hbsmem
      have hpos : 0 < ((periodsOf l).map (fun p => p.2.1)).count bs := by
        unfold startCount at hbs10
        omega
      obtain ⟨p, hp, hps⟩ := List.mem_map.mp (List.count_pos_iff.mp hpos)
      have hpfil : p ∈ (periodsOf l).filter (fun p => p.2.1 = bs) :=
        List.mem_filter.mpr ⟨hp, by simp [hps]⟩
      rw [extract_eq_of_some hmax] at h
      cases hfil : (periodsOf l).filter (fun p => p.2.1 = bs) with
      | nil => rw [hfil] at hpfil; simp at hpfil
      | cons x xs =>
        rw [selectorWithStart_of_cons hfil] at h
        unfold includeWindow at h
        exact Finset.insert_ne_empty _ _ h
  · intro h
    have hnil : candidateStarts l = [] := by
      unfold candidateStarts
      rw [List.filter_eq_nil_iff]
      intro d _
      simp only [decide_eq_true_iff, not_le]
      exact h d
    apply extract_eq_of_none
    rw [hnil]
    rfl

/-- A context map with 10 period contexts of identical 365-day spans (and
no duration anywhere near a quarter length) plus one instant. -/
def mapNoQuarterBand : List (Str × CtxEntry) :=
  [("c-1".toList, CtxEntry.period 0 365), ("c-2".toList, CtxEntry.period 0 365),
   ("c-3".toList, CtxEntry.period 0 365), ("c-4".toList, CtxEntry.period 0 365),
   ("c-5".toList, CtxEntry.period 0 365), ("c-6".toList, CtxEntry.period 0 365),
   ("c-7".toList, CtxEntry.period 0 365), ("c-8".toList, CtxEntry.period 0 365),
   ("c-9".toList, CtxEntry.period 0 365), ("c-10".toList, CtxEntry.period 0 365),
   ("c-11".toList, CtxEntry.instant 100)]

/-- C1 counterexample: the code applies no `[85, 93]`-day candidate filter
at all.  On a context map whose durations are all 365 days long (none in
the band) but share a start date recurring 10 times, the selector returns
a NON-empty set, contradicting the claim that such maps yield the empty
set and that only band-length durations are candidates. -/
theorem C1_counterexample :
    (∀ p ∈ periodsOf mapNoQuarterBand,
      ¬(85 ≤ p.2.2 - p.2.1 ∧ p.2.2 - p.2.1 ≤ 93)) ∧
    extract_latest_context_ids mapNoQuarterBand ≠ ∅ := by
  constructor
  · decide
  · decide

/-- C1 amended: duration length plays no role in candidate selection.  For
a context map with no duration of quarter length, the selector returns the
empty set — without signalling an error, being a total function — if and
only if no start date recurs across at least 10 period contexts. -/
theorem C1_no_band_filter (l : List (Str × CtxEntry))
    (_hband : ∀ p ∈ periodsOf l, ¬(85 ≤ p.2.2 - p.2.1 ∧ p.2.2 - p.2.1 ≤ 93)) :
    extract_latest_context_ids l = ∅ ↔ ∀ d : ℤ, startCount l d < 10 :=
  extract_eq_empty_iff l

/-- A quarter-band-free map too small for any recurrence. -/
def mapFewLong : List (Str × CtxEntry) :=
  [("c-1".toList, CtxEntry.period 0 365), ("c-2".toList, CtxEntry.instant 5)]

/-- C1 witness: the amended theorem applied to a concrete band-free map
with a single long duration. -/
theorem C1_witness : extract_latest_context_ids mapFewLong = ∅ :=
  (C1_no_band_filter mapFewLong (by decide)).mpr
    (fun d => lt_of_le_of_lt (List.count_le_length d _) (by decide))

/-- A context map holding exactly one candidate-length (91-day) duration. -/
def mapSingleQuarter : List (Str × CtxEntry) :=
  [("c-1".toList, CtxEntry.period 0 91)]

/-- C2 counterexample: with a single quarter-length candidate whose start
date recurs only once, the claimed fallback would select that candidate's
id (it has the single latest end date); the code instead returns the empty
set (financial_translator.py:688-690 returns `[]` when no start date
recurs 10 times). -/
theorem C2_counterexample :
    periodsOf mapSingleQuarter ≠ [] ∧
    extract_latest_context_ids mapSingleQuarter = ∅ := by
  constructor
  · decide
  · decide

/-- C2 amended: when no start date recurs across at least 10 period
contexts the selector selects nothing at all — there is no fallback to the
candidate with the latest end date. -/
theorem C2_no_fallback (l : List (Str × CtxEntry))
    (h : ∀ d : ℤ, startCount l d < 10) :
    extract_latest_context_ids l = ∅ :=
  (extract_eq_empty_iff l).mpr h

/-- C2 witness: the amended theorem applied to the single-candidate map. -/
theorem C2_witness : extract_latest_context_ids mapSingleQuarter = ∅ :=
  C2_no_fallback mapSingleQuarter
    (fun d => lt_of_le_of_lt (List.count_le_length d _) (by decide))

/-- The ids of the period contexts with start date `bs` and end date `be`.
When `be` is the maximal end date among the periods starting at `bs`,
these are exactly the contexts qualifying as the claim's baseline
context. -/
def baselineIds (l : List (Str × CtxEntry)) (bs be : ℤ) : Finset Str :=
  (((periodsOf l).filter (fun p => p.2.1 = bs ∧ p.2.2 = be)).map
    (fun p => p.1)).toFinset

/-- C3: whenever a baseline exists — some start date `bs` recurs across at
least 10 period contexts and is the latest such date, and `be` is the
latest end date among the periods starting at `bs` — the selector returns
exactly the union of the baseline context id(s), the period-context ids
whose start or end date falls inside `[bs, be + 10]`, and the
instant-context ids whose date falls inside that window.  The hypothesis
`hinv` is the data-model invariant `start_date <= end_date` for period
contexts. -/
theorem C3_baseline_window (l : List (Str × CtxEntry)) (bs be : ℤ)
    (hinv : ∀ p ∈ periodsOf l, p.2.1 ≤ p.2.2)
    (hbs10 : 10 ≤ startCount l bs)
    (hbsmax : ∀ d ∈ candidateStarts l, d ≤ bs)
    (hbe : ∃ p ∈ periodsOf l, p.2.1 = bs ∧ p.2.2 = be)
    (hbemax : ∀ p ∈ periodsOf l, p.2.1 = bs → p.2.2 ≤ be) :
    extract_latest_context_ids l =
      durationIdsInWindow l bs (be + 10) ∪ instantIdsInWindow l bs (be + 10) ∪
        baselineIds l bs be := by
  have hmax : (candidateStarts l).max? = some bs :=
    (int_max?_eq_some_iff _ _).mpr
      ⟨(mem_candidateStarts_iff l bs).mpr hbs10, hbsmax⟩
  rw [extract_eq_of_some hmax]
  obtain ⟨p0, hp0, hp0s, hp0e⟩ := hbe
  have hp0fil : p0 ∈ (periodsOf l).filter (fun p => p.2.1 = bs) :=
    List.mem_filter.mpr ⟨hp0, by simp [hp0s]⟩
  cases hfil : (periodsOf l).filter (fun p => p.2.1 = bs) with
  | nil => rw [hfil] at hp0fil; simp at hp0fil
  | cons x xs =>
    rw [selectorWithStart_of_cons hfil]
    have hbpfil : maxByEnd x xs ∈ (periodsOf l).filter (fun p => p.2.1 = bs) := by
      rw [hfil]; exact maxByEnd_mem xs x
    have hbpP : maxByEnd x xs ∈ periodsOf l := (List.mem_filter.mp hbpfil).1
    have hbps : (maxByEnd x xs).2.1 = bs := by
      have h2 := (List.mem_filter.mp hbpfil).2
      simpa using h2
    have hbpe : (maxByEnd x xs).2.2 = be := by
      apply le_antisymm
      · exact hbemax _ hbpP hbps
      · rw [hfil] at hp0fil
        have hge := maxByEnd_ge xs x p0 hp0fil
        omega
    rw [includeWindow_eq hbpP (hinv _ hbpP), hbps, hbpe]
    have hsub : baselineIds l bs be ⊆
        durationIdsInWindow l bs (be + 10) ∪ instantIdsInWindow l bs (be + 10) := by
      intro a ha
      unfold baselineIds at ha
      rw [List.mem_toFinset] at ha
      obtain ⟨p, hpfil, hpa⟩ := List.mem_map.mp ha
      have hpP := (List.mem_filter.mp hpfil).1
      have hpprop : p.2.1 = bs ∧ p.2.2 = be := by
        have h2 := (List.mem_filter.mp hpfil).2
        simpa using h2
      apply Finset.mem_union_left
      rw [← hpa]
      refine mem_durationIdsInWindow hpP (Or.inl ⟨?_, ?_⟩)
      · omega
      · have := hinv p hpP
        omega
    rw [Finset.union_eq_left.mpr hsub, Finset.union_comm]

/-- A context map with ten 91-day periods sharing a start date, one
in-window instant, one out-of-window instant, one period straddling the
window and one period outside it. -/
def mapRich : List (Str × CtxEntry) :=
  [("c-1".toList, CtxEntry.period 0 91), ("c-2".toList, CtxEntry.period 0 91),
   ("c-3".toList, CtxEntry.period 0 91), ("c-4".toList, CtxEntry.period 0 91),
   ("c-5".toList, CtxEntry.period 0 91), ("c-6".toList, CtxEntry.period 0 91),
   ("c-7".toList, CtxEntry.period 0 91), ("c-8".toList, CtxEntry.period 0 91),
   ("c-9".toList, CtxEntry.period 0 91), ("c-10".toList, CtxEntry.period 0 91),
   ("c-11".toList, CtxEntry.instant 91), ("c-12".toList, CtxEntry.instant 200),
   ("c-13".toList, CtxEntry.period 95 300),
   ("c-14".toList, CtxEntry.period 150 400)]

/-- C3 witness: the window theorem applied to a concrete rich context map
with baseline start 0 and baseline end 91. -/
theorem C3_witness :
    extract_latest_context_ids mapRich =
      durationIdsInWindow mapRich 0 (91 + 10) ∪
        instantIdsInWindow mapRich 0 (91 + 10) ∪ baselineIds mapRich 0 91 :=
  C3_baseline_window mapRich 0 91 (by decide) (by decide) (by decide)
    (by decide) (by decide)

/-- Ten period contexts sharing a start date whose end date lies more than
10 days BEFORE the start (a state the resolver never rules out, see
`C9_counterexample`): the extended window `[start, end + 10]` is then
empty, so the only selected id is the baseline itself, and the baseline is
chosen by first-wins tie-breaking over map insertion order. -/
def mapPathA : List (Str × CtxEntry) :=
  [("c-1".toList, CtxEntry.period 200 100), ("c-2".toList, CtxEntry.period 200 100),
   ("c-3".toList, CtxEntry.period 200 100), ("c-4".toList, CtxEntry.period 200 100),
   ("c-5".toList, CtxEntry.period 200 100), ("c-6".toList, CtxEntry.period 200 100),
   ("c-7".toList, CtxEntry.period 200 100), ("c-8".toList, CtxEntry.period 200 100),
   ("c-9".toList, CtxEntry.period 200 100), ("c-10".toList, CtxEntry.period 200 100)]

/-- The same context map as `mapPathA` with its first two entries presented
in the opposite insertion order. -/
def mapPathB : List (Str × CtxEntry) :=
  [("c-2".toList, CtxEntry.period 200 100), ("c-1".toList, CtxEntry.period 200 100),
   ("c-3".toList, CtxEntry.period 200 100), ("c-4".toList, CtxEntry.period 200 100),
   ("c-5".toList, CtxEntry.period 200 100), ("c-6".toList, CtxEntry.period 200 100),
   ("c-7".toList, CtxEntry.period 200 100), ("c-8".toList, CtxEntry.period 200 100),
   ("c-9".toList, CtxEntry.period 200 100), ("c-10".toList, CtxEntry.period 200 100)]

/-- C4 counterexample: the selector is NOT deterministic under input
reordering in general.  On two insertion orders of the same pathological
context map (tied end dates lying more than 10 days before the shared
start date), Python's first-wins `max(..., key=...)` picks a different
baseline id, and since the extended window is empty the selected id SETS
differ. -/
theorem C4_counterexample :
    mapPathA.Perm mapPathB ∧
    extract_latest_context_ids mapPathA ≠ extract_latest_context_ids mapPathB := by
  constructor
  · exact List.Perm.swap _ _ _
  · decide

/-- C4 amended: determinism under input reordering holds on every context
map whose period contexts satisfy the data-model invariant
`start_date <= end_date` (§3 of the specification): two permutations of
such a map always yield the identical selected-id set. -/
theorem C4_deterministic (l₁ l₂ : List (Str × CtxEntry))
    (hinv : ∀ p ∈ periodsOf l₁, p.2.1 ≤ p.2.2)
    (hperm : l₁.Perm l₂) :
    extract_latest_context_ids l₁ = extract_latest_context_ids l₂ := by
  have hpp : (periodsOf l₁).Perm (periodsOf l₂) := hperm.filterMap _
  have hip : (instantsOf l₁).Perm (instantsOf l₂) := hperm.filterMap _
  have hcount : ∀ d, startCount l₁ d = startCount l₂ d := by
    intro d
    unfold startCount
    exact (hpp.map (fun p => p.2.1)).count_eq d
  have hcand : (candidateStarts l₁).Perm (candidateStarts l₂) := by
    unfold candidateStarts
    have hflt := ((hpp.map (fun p => p.2.1)).dedup).filter
      (fun d => decide (10 ≤ startCount l₁ d))
    have hcongr : List.filter (fun d => decide (10 ≤ startCount l₁ d))
        (((periodsOf l₂).map (fun p => p.2.1)).dedup) =
        List.filter (fun d => decide (10 ≤ startCount l₂ d))
        (((periodsOf l₂).map (fun p => p.2.1)).dedup) :=
      List.filter_congr (fun d _ => by rw [hcount d])
    rw [hcongr] at hflt
    exact hflt
  have hmax := perm_int_max? hcand
  cases hm : (candidateStarts l₁).max? with
  | none =>
    rw [extract_eq_of_none hm, extract_eq_of_none (by rw [← hmax]; exact hm)]
  | some bs =>
    have hm2 : (candidateStarts l₂).max? = some bs := by rw [← hmax]; exact hm
    rw [extract_eq_of_some hm, extract_eq_of_some hm2]
    have hfp : ((periodsOf l₁).filter (fun p => p.2.1 = bs)).Perm
        ((periodsOf l₂).filter (fun p => p.2.1 = bs)) := hpp.filter _
    cases hf1 : (periodsOf l₁).filter (fun p => p.2.1 = bs) with
    | nil =>
      rw [hf1] at hfp
      rw [selectorWithStart_of_nil hf1, selectorWithStart_of_nil hfp.symm.eq_nil]
    | cons x xs =>
      cases hf2 : (periodsOf l₂).filter (fun p => p.2.1 = bs) with
      | nil =>
        rw [hf1, hf2] at hfp
        exact absurd hfp.eq_nil (by simp)
      | cons y ys =>
        rw [selectorWithStart_of_cons hf1, selectorWithStart_of_cons hf2]
        have hbp1fil : maxByEnd x xs ∈ (periodsOf l₁).filter (fun p => p.2.1 = bs) := by
          rw [hf1]; exact maxByEnd_mem xs x
        have hbp2fil : maxByEnd y ys ∈ (periodsOf l₂).filter (fun p => p.2.1 = bs) := by
          rw [hf2]; exact maxByEnd_mem ys y
        have hbp1P : maxByEnd x xs ∈ periodsOf l₁ := (List.mem_filter.mp hbp1fil).1
        have hbp2P : maxByEnd y ys ∈ periodsOf l₂ := (List.mem_filter.mp hbp2fil).1
        have hbp1s : (maxByEnd x xs).2.1 = bs := by
          have h2 := (List.mem_filter.mp hbp1fil).2
          simpa using h2
        have hbp2s : (maxByEnd y ys).2.1 = bs := by
          have h2 := (List.mem_filter.mp hbp2fil).2
          simpa using h2
        have hle12 : (maxByEnd x xs).2.2 ≤ (maxByEnd y ys).2.2 := by
          have hmem2 := hfp.mem_iff.mp hbp1fil
          rw [hf2] at hmem2
          exact maxByEnd_ge ys y _ hmem2
        have hle21 : (maxByEnd y ys).2.2 ≤ (maxByEnd x xs).2.2 := by
          have hmem1 := hfp.mem_iff.mpr hbp2fil
          rw [hf1] at hmem1
          exact maxByEnd_ge xs x _ hmem1
        have hee : (maxByEnd x xs).2.2 = (maxByEnd y ys).2.2 :=
          le_antisymm hle12 hle21
        have hinv2 : ∀ p ∈ periodsOf l₂, p.2.1 ≤ p.2.2 :=
          fun p hp => hinv p (hpp.mem_iff.mpr hp)
        rw [includeWindow_eq hbp1P (hinv _ hbp1P),
            includeWindow_eq hbp2P (hinv2 _ hbp2P), hbp1s, hbp2s, hee]
        have hi : instantIdsInWindow l₁ bs ((maxByEnd y ys).2.2 + 10) =
            instantIdsInWindow l₂ bs ((maxByEnd y ys).2.2 + 10) := by
          unfold instantIdsInWindow
          exact List.toFinset_eq_of_perm _ _ ((hip.filter _).map _)
        have hd : durationIdsInWindow l₁ bs ((maxByEnd y ys).2.2 + 10) =
            durationIdsInWindow l₂ bs ((maxByEnd y ys).2.2 + 10) := by
          unfold durationIdsInWindow
          exact List.toFinset_eq_of_perm _ _ ((hpp.filter _).map _)
        rw [hi, hd]

/-- A permutation of `mapRich`: its first two entries swapped. -/
def mapRichSwap : List (Str × CtxEntry) :=
  [("c-2".toList, CtxEntry.period 0 91), ("c-1".toList, CtxEntry.period 0 91),
   ("c-3".toList, CtxEntry.period 0 91), ("c-4".toList, CtxEntry.period 0 91),
   ("c-5".toList, CtxEntry.period 0 91), ("c-6".toList, CtxEntry.period 0 91),
   ("c-7".toList, CtxEntry.period 0 91), ("c-8".toList, CtxEntry.period 0 91),
   ("c-9".toList, CtxEntry.period 0 91), ("c-10".toList, CtxEntry.period 0 91),
   ("c-11".toList, CtxEntry.instant 91), ("c-12".toList, CtxEntry.instant 200),
   ("c-13".toList, CtxEntry.period 95 300),
   ("c-14".toList, CtxEntry.period 150 400)]

/-- C4 witness: the determinism theorem applied to the invariant-satisfying
map `mapRich` and a reordering of it. -/
theorem C4_witness :
    extract_latest_context_ids mapRich = extract_latest_context_ids mapRichSwap :=
  C4_deterministic mapRich mapRichSwap (by decide) (List.Perm.swap _ _ _)

-- Fact Extractor (sec_fetcher.py:101-219, get_xbrl_data) and the
-- structuring step (llm_translate.py:260-342, create_structured_json) ---------

/-- Python's Unicode-whitespace set restricted to ASCII, for `str.strip()`. -/
def isSpaceChar (c : Char) : Bool :=
  c = ' ' ∨ c = '\t' ∨ c = '\n' ∨ c = '\r' ∨ c = '\x0b' ∨ c = '\x0c'

/-- `s.strip()`. -/
def pyStrip (s : Str) : Str :=
  ((s.dropWhile isSpaceChar).reverse.dropWhile isSpaceChar).reverse

/-- The dimensional information `get_xbrl_data` parses per context element
(sec_fetcher.py:119-174): axis, member and explicit-member name lists plus
the optional period dict (`none` models the empty dict `{}`). -/
structure CtxInfo where
  axis : List Str
  members : List Str
  explicit_members : List Str
  period : Option CtxEntry
deriving DecidableEq

/-- A tagged element of the instance document as seen by the `us-gaap:`
scan of `get_xbrl_data` (sec_fetcher.py:180-208): its tag name, the
`contextref`/`unitref`/`decimals` attributes (`decimals` defaults to the
string `"0"` when absent) and its inner text. -/
structure InstanceElement where
  name : Str
  contextref : Str
  unitref : Str
  decimals : Option Str
  text : Str
deriving DecidableEq

/-- The fact data point built at sec_fetcher.py:188-206: the stripped
element text is stored verbatim as `value`, `display_value` and
`raw_value`; the context information is joined in when the `contextref`
resolves. -/
structure FactPoint where
  value : Str
  display_value : Str
  context : Str
  unit : Str
  decimals : Str
  raw_value : Str
  ctxInfo : Option CtxInfo
deriving DecidableEq

/-- `tag.name.startswith('us-gaap:')` (sec_fetcher.py:180). -/
def startsWithUsGaap : Str → Bool
  | 'u' :: 's' :: '-' :: 'g' :: 'a' :: 'a' :: 'p' :: ':' :: _ => true
  | _ => false

/-- `element.name.split(':')[1]`: the segment between the first and second
colon. -/
def secondColonSegment (name : Str) : Str :=
  match splitFirst ':' name with
  | some p => p.2.takeWhile (fun c => c ≠ ':')
  | none => []

/-- The data-point construction of `get_xbrl_data`
(sec_fetcher.py:185-206).  NOTE: no arithmetic touches the text — there is
no parsing into a number and no division by a power of ten derived from
`decimals`; the decimals attribute is stored as an opaque string. -/
def mkFactPoint (contextData : List (Str × CtxInfo)) (e : InstanceElement) : FactPoint :=
  { value := pyStrip e.text
    display_value := pyStrip e.text
    context := e.contextref
    unit := e.unitref
    decimals := e.decimals.getD ("0".toList)
    raw_value := pyStrip e.text
    ctxInfo := alookup contextData e.contextref }

/-- The `us-gaap:` fact scan of `get_xbrl_data` (sec_fetcher.py:177-208):
a `defaultdict(list)` keyed by the lowered bare tag name, appending one
data point per element occurrence in document order. -/
def get_xbrl_data (contextData : List (Str × CtxInfo))
    (elems : List InstanceElement) : List (Str × List FactPoint) :=
  elems.foldl (fun m e =>
    if startsWithUsGaap e.name then
      dictInsert (strLower (secondColonSegment e.name))
        (getDflt m (strLower (secondColonSegment e.name)) [] ++
          [mkFactPoint contextData e]) m
    else m) []

/-- The per-fact record built by `create_structured_json`
(llm_translate.py:311-316). -/
structure ProcessedData where
  value : Str
  display_value : Str
  context : Str
  unit : Str
deriving DecidableEq

/-- The value-processing step of `create_structured_json`
(llm_translate.py:304-316).  In this pipeline fact values are strings
(element text persisted through JSON by `get_xbrl_data`), so the
`isinstance(value, (int, float))` branch is never taken and
`display_value = str(value)` is the value itself; no decimals-based
scaling is applied anywhere. -/
def mkProcessedData (d : FactPoint) : ProcessedData :=
  { value := d.value
    display_value := d.value
    context := d.context
    unit := d.unit }

/-- A concrete revenue fact: raw value 1500000000 tagged with decimals
-6. -/
def factRevenue : InstanceElement :=
  { name := "us-gaap:Revenues".toList
    contextref := "c-1".toList
    unitref := "usd".toList
    decimals := some ("-6".toList)
    text := "1500000000".toList }

/-- C8 counterexample: a fact with raw value `"1500000000"` and decimals
`"-6"` is NOT normalized to 1500.0 — every value field of the produced
data point, and the value passed on by the structuring step, is the raw
text `"1500000000"` unchanged. -/
theorem C8_counterexample :
    (mkFactPoint [] factRevenue).value = "1500000000".toList ∧
    (mkFactPoint [] factRevenue).value ≠ "1500.0".toList ∧
    (mkProcessedData (mkFactPoint [] factRevenue)).display_value =
      "1500000000".toList := by
  refine ⟨by decide, by decide, by decide⟩

/-- C8 amended: no decimals-based scale adjustment exists in the code.
For every element, the produced fact carries the stripped raw text
unchanged as `value`, `display_value` and `raw_value`, the decimals marker
is kept as an opaque string (defaulting to `"0"`), the structuring step
passes the value through unscaled, and replacing the decimals attribute by
any other value leaves every value field untouched. -/
theorem C8_no_scaling (contextData : List (Str × CtxInfo)) (e : InstanceElement) :
    (mkFactPoint contextData e).value = pyStrip e.text ∧
    (mkFactPoint contextData e).display_value = pyStrip e.text ∧
    (mkFactPoint contextData e).raw_value = pyStrip e.text ∧
    (mkProcessedData (mkFactPoint contextData e)).value = pyStrip e.text ∧
    (∀ d : Option Str,
      (mkFactPoint contextData { e with decimals := d }).value =
        (mkFactPoint contextData e).value ∧
      (mkFactPoint contextData { e with decimals := d }).display_value =
        (mkFactPoint contextData e).display_value ∧
      (mkFactPoint contextData { e with decimals := d }).raw_value =
        (mkFactPoint contextData e).raw_value) :=
  ⟨rfl, rfl, rfl, rfl, fun _ => ⟨rfl, rfl, rfl⟩⟩

-- Presentation Hierarchy Builder (sec_fetcher.py:440-529,
-- create_hierarchy_json) ------------------------------------------------------

/-- A `link:loc` element: its `xlink:label` and `xlink:href`. -/
structure Loc where
  label : Str
  href : Str
deriving DecidableEq

/-- A `link:presentationArc` element: `xlink:from`, `xlink:to` and its
declared `order` attribute (absent on some arcs).  The builder never reads
`order`. -/
structure PresArc where
  fromLabel : Str
  toLabel : Str
  order : Option ℚ
deriving DecidableEq

/-- A `link:presentationLink` element with its role and child elements in
document order. -/
structure PresLink where
  role : Str
  locs : List Loc
  arcs : List PresArc
deriving DecidableEq

/-- The Korean-keyed data point copied into a child node at
sec_fetcher.py:502-511 (값/단위/소수점/컨텍스트/축/멤버/Explicit
Members/기간, rendered here with English field names). -/
structure HierPoint where
  value : Str
  unit : Str
  decimals : Str
  context : Str
  axis : List Str
  members : List Str
  explicit_members : List Str
  period : Option CtxEntry
deriving DecidableEq

/-- The copy, with `value.get('axis', [])`-style defaults for facts whose
context was never resolved. -/
def mkHierPoint (v : FactPoint) : HierPoint :=
  { value := v.value
    unit := v.unit
    decimals := v.decimals
    context := v.context
    axis := (v.ctxInfo.map CtxInfo.axis).getD []
    members := (v.ctxInfo.map CtxInfo.members).getD []
    explicit_members := (v.ctxInfo.map CtxInfo.explicit_members).getD []
    period := (v.ctxInfo.map CtxInfo.period).getD none }

/-- A child node of the hierarchy (sec_fetcher.py:492-495): the resolved
child concept plus the data points attached to it. -/
structure HierNode where
  concept : Str
  data : List HierPoint
deriving DecidableEq

/-- `href.split('#')[-1]`: the fragment after the last hash. -/
def afterLastHash (href : Str) : Str :=
  (href.reverse.takeWhile (fun c => c ≠ '#')).reverse

/-- The label-to-tag map built from the `loc` elements
(sec_fetcher.py:469-475): only hrefs containing `'#'` contribute, later
locs overwrite earlier ones with the same label. -/
def buildTagMap (locs : List Loc) : List (Str × Str) :=
  locs.foldl (fun m loc =>
    if '#' ∈ loc.href then dictInsert loc.label (afterLastHash loc.href) m
    else m) []

/-- The fact list attached to a child concept (sec_fetcher.py:497-512):
look the normalized, lowered tag up in the xbrl data and copy each data
point; an unknown tag yields the empty list. -/
def factsFor (xd : List (Str × List FactPoint)) (toTag : Str) : List HierPoint :=
  match alookup xd (strLower (remove_namespace toTag)) with
  | some vs => vs.map mkHierPoint
  | none => []

/-- One iteration of the arc loop (sec_fetcher.py:479-514): if both labels
resolve through the tag map, ensure the parent key exists and append the
child node to the parent's list; otherwise do nothing.  The arc's `order`
attribute is never consulted. -/
def processArc (tagMap : List (Str × Str)) (xd : List (Str × List FactPoint))
    (inner : List (Str × List HierNode)) (arc : PresArc) :
    List (Str × List HierNode) :=
  match alookup tagMap arc.fromLabel, alookup tagMap arc.toLabel with
  | some ft, some tt =>
    dictInsert ft
      (getDflt (if hasKey inner ft then inner else dictInsert ft [] inner) ft [] ++
        [{ concept := tt, data := factsFor xd tt }])
      (if hasKey inner ft then inner else dictInsert ft [] inner)
  | _, _ => inner

/-- One iteration of the `presentationLink` loop (sec_fetcher.py:460-514):
derive the section name (an empty name skips the link), ensure the section
key, build the tag map and run the arc loop on the section's current
mapping.  The section-naming function (`self.get_section_name`) is passed
as a parameter. -/
def processLink (secName : Str → Str) (xd : List (Str × List FactPoint))
    (h : List (Str × List (Str × List HierNode))) (link : PresLink) :
    List (Str × List (Str × List HierNode)) :=
  if secName link.role = [] then h
  else
    dictInsert (secName link.role)
      (link.arcs.foldl (processArc (buildTagMap link.locs) xd)
        (getDflt
          (if hasKey h (secName link.role) then h
           else dictInsert (secName link.role) [] h)
          (secName link.role) []))
      (if hasKey h (secName link.role) then h
       else dictInsert (secName link.role) [] h)

/-- `create_hierarchy_json` (sec_fetcher.py:440-529), restricted to its
computational core: process every presentation link, then drop the
sections whose mapping is empty (`{k: v for k, v in hierarchy.items() if v}`,
line 517). -/
def create_hierarchy_json (secName : Str → Str) (xd : List (Str × List FactPoint))
    (links : List PresLink) : List (Str × List (Str × List HierNode)) :=
  (links.foldl (processLink secName xd) []).filter (fun kv => !kv.2.isEmpty)

/-- An arc contributes a child under `parent` exactly when both its labels
resolve through the tag map and its parent tag is `parent`. -/
def arcKeep (tagMap : List (Str × Str)) (parent : Str) (a : PresArc) : Bool :=
  alookup tagMap a.fromLabel = some parent ∧ (alookup tagMap a.toLabel).isSome

/-- The child node an arc contributes (when its to-label resolves). -/
def arcNode (tagMap : List (Str × Str)) (xd : List (Str × List FactPoint))
    (a : PresArc) : Option HierNode :=
  match alookup tagMap a.toLabel with
  | some tt => some { concept := tt, data := factsFor xd tt }
  | none => none

theorem alookup_dictInsert_self {β : Type} (k : Str) (v : β) (m : List (Str × β)) :
    alookup (dictInsert k v m) k = some v := by
  induction m with
  | nil => simp [dictInsert, alookup]
  | cons hd tl ih =>
    obtain ⟨k₁, v₁⟩ := hd
    by_cases hk : k₁ = k
    · simp [dictInsert, if_pos hk, alookup]
    · simp only [dictInsert, if_neg hk, alookup]
      exact ih


theorem alookup_dictInsert_ne {β : Type} {k k' : Str} (hne : k' ≠ k) (v : β)
    (m : List (Str × β)) : alookup (dictInsert k v m) k' = alookup m k' := by
  induction m with
  | nil =>
    simp only [dictInsert, alookup]
    rw [if_neg (fun h => hne h.symm)]
  | cons hd tl ih =>
    obtain ⟨k₁, v₁⟩ := hd
    by_cases hk : k₁ = k
    · subst hk
      simp only [dictInsert, if_pos rfl, alookup]
      rw [if_neg (fun h => hne h.symm), if_neg (fun h => hne h.symm)]
    · simp only [dictInsert, if_neg hk, alookup]
      by_cases hk2 : k₁ = k'
      · rw [if_pos hk2, if_pos hk2]
      · rw [if_neg hk2, if_neg hk2]
        exact ih

/-- A fixed section-naming function for concrete examples (a stand-in for
`get_section_name`, which always returns a nonempty name for role URIs
containing a role pattern, `'Other'` otherwise). -/
def secNameFixed : Str → Str := fun _ => "S".toList

/-- A presentation link with one resolvable parent-child arc whose child
concept has no facts anywhere. -/
def linkNoFacts : PresLink :=
  { role := "http://x/role/Stmt".toList
    locs := [{ label := "locA".toList, href := "x#ParentTag".toList },
             { label := "locB".toList, href := "x#us-gaap_ChildTag".toList }]
    arcs := [{ fromLabel := "locA".toList, toLabel := "locB".toList,
               order := some 1 }] }

/-- C6 counterexample: with an empty fact base, the builder still emits
the section — its single concept carries an empty fact list.  The claim
that a role all of whose concepts carry no facts is omitted fails on the
code: the filter at sec_fetcher.py:517 only drops sections with no
resolvable arcs at all. -/
theorem C6_counterexample :
    create_hierarchy_json secNameFixed [] [linkNoFacts] ≠ [] ∧
    (∀ kv ∈ create_hierarchy_json secNameFixed [] [linkNoFacts],
      ∀ pn ∈ kv.2, ∀ n ∈ pn.2, n.data = []) := by
  refine ⟨by decide, by decide⟩

/-- C6 amended: the builder omits a section exactly when it contains no
parent entry at all (no arc of its role resolved through the label map);
every emitted section has at least one parent entry, but its concepts may
all carry empty fact lists. -/
theorem C6_amended (secName : Str → Str) (xd : List (Str × List FactPoint))
    (links : List PresLink) :
    ∀ kv ∈ create_hierarchy_json secName xd links, kv.2 ≠ [] := by
  intro kv hkv
  unfold create_hierarchy_json at hkv
  have h2 := (List.mem_filter.mp hkv).2
  intro hnil
  rw [hnil] at h2
  simp at h2

/-- C6 witness: the amended theorem applied to the no-facts link shows the
emitted section's parent map is nonempty. -/
theorem C6_witness :
    (("S".toList,
        [("ParentTag".toList,
          [({ concept := "us-gaap_ChildTag".toList, data := [] } : HierNode)])]) :
      Str × List (Str × List HierNode)).2 ≠ [] :=
  C6_amended secNameFixed [] [linkNoFacts] _ (by decide)

/-- A presentation link with two resolvable arcs under one parent whose
declared orders (2.0 then 1.0) disagree with their document order. -/
def linkOrders : PresLink :=
  { role := "http://x/role/Stmt".toList
    locs := [{ label := "locA".toList, href := "x#Parent".toList },
             { label := "locB".toList, href := "x#AlphaTag".toList },
             { label := "locC".toList, href := "x#BetaTag".toList }]
    arcs := [{ fromLabel := "locA".toList, toLabel := "locB".toList,
               order := some 2 },
             { fromLabel := "locA".toList, toLabel := "locC".toList,
               order := some 1 }] }

/-- What C7 claims the children of a parent should be: the link's arcs
that resolve to this parent, stably sorted by the declared order attribute
(default 1.0 when the attribute is absent, ties in document order), each
mapped to its child node. -/
def specSortedChildren (link : PresLink) (xd : List (Str × List FactPoint))
    (parent : Str) : List HierNode :=
  (sortByKey (fun a : PresArc => a.order.getD 1)
      (link.arcs.filter (arcKeep (buildTagMap link.locs) parent))).filterMap
    (arcNode (buildTagMap link.locs) xd)

/-- C7 counterexample: the builder emits the children in arc document
order (`AlphaTag` before `BetaTag`), not in the claimed order-attribute
order (`BetaTag` with order 1.0 before `AlphaTag` with order 2.0); the
`order` attribute is never read. -/
theorem C7_counterexample :
    (getDflt (getDflt (create_hierarchy_json secNameFixed [] [linkOrders])
        ("S".toList) []) ("Parent".toList) []).map HierNode.concept =
      ["AlphaTag".toList, "BetaTag".toList] ∧
    (specSortedChildren linkOrders [] ("Parent".toList)).map HierNode.concept =
      ["BetaTag".toList, "AlphaTag".toList] ∧
    getDflt (getDflt (create_hierarchy_json secNameFixed [] [linkOrders])
        ("S".toList) []) ("Parent".toList) [] ≠
      specSortedChildren linkOrders [] ("Parent".toList) := by
  refine ⟨by decide, by decide, by decide⟩

theorem getDflt_dictInsert_self {β : Type} (k : Str) (v : β) (m : List (Str × β))
    (d : β) : getDflt (dictInsert k v m) k d = v := by
  unfold getDflt
  rw [alookup_dictInsert_self]
  rfl

theorem getDflt_dictInsert_ne {β : Type} {k k' : Str} (hne : k' ≠ k) (v : β)
    (m : List (Str × β)) (d : β) :
    getDflt (dictInsert k v m) k' d = getDflt m k' d := by
  unfold getDflt
  rw [alookup_dictInsert_ne hne]

/-- The arc loop appends children to a parent's list in arc document
order: after folding a list of arcs, a parent's children are whatever it
had before, followed by one node per resolvable arc with that parent, in
the order the arcs occur in the document. -/
theorem children_doc_order (tagMap : List (Str × Str))
    (xd : List (Str × List FactPoint)) :
    ∀ (arcs : List PresArc) (inner : List (Str × List HierNode)) (parent : Str),
    getDflt (arcs.foldl (processArc tagMap xd) inner) parent [] =
      getDflt inner parent [] ++
        (arcs.filter (arcKeep tagMap parent)).filterMap (arcNode tagMap xd) := by
  intro arcs
  induction arcs with
  | nil =>
    intro inner parent
    simp
  | cons a rest ih =>
    intro inner parent
    simp only [List.foldl_cons]
    rw [ih, List.filter_cons]
    cases hf : alookup tagMap a.fromLabel with
    | none =>
      have hpa : processArc tagMap xd inner a = inner := by
        unfold processArc
        rw [hf]
      have hkeep : arcKeep tagMap parent a = false := by
        unfold arcKeep
        rw [hf]
        simp
      rw [hpa, hkeep]
      simp
    | some ft =>
      cases ht : alookup tagMap a.toLabel with
      | none =>
        have hpa : processArc tagMap xd inner a = inner := by
          unfold processArc
          rw [hf, ht]
        have hkeep : arcKeep tagMap parent a = false := by
          unfold arcKeep
          rw [ht]
          simp
        rw [hpa, hkeep]
        simp
      | some tt =>
        have hpa : processArc tagMap xd inner a =
            dictInsert ft
              (getDflt (if hasKey inner ft then inner else dictInsert ft [] inner)
                  ft [] ++ [{ concept := tt, data := factsFor xd tt }])
              (if hasKey inner ft then inner else dictInsert ft [] inner) := by
          unfold processArc
          rw [hf, ht]
        have hnode : arcNode tagMap xd a =
            some { concept := tt, data := factsFor xd tt } := by
          unfold arcNode
          rw [ht]
        by_cases hp : ft = parent
        · subst hp
          have hkeep : arcKeep tagMap ft a = true := by
            unfold arcKeep
            rw [hf, ht]
            simp
          have hInner2 : getDflt
              (if hasKey inner ft then inner else dictInsert ft [] inner) ft [] =
              getDflt inner ft [] := by
            by_cases hk : hasKey inner ft
            · rw [if_pos hk]
            · rw [if_neg hk, getDflt_dictInsert_self]
              unfold hasKey at hk
              unfold getDflt
              cases hal : alookup inner ft with
              | none => rfl
              | some v => rw [hal] at hk; simp at hk
          rw [hpa, hkeep, getDflt_dictInsert_self, hInner2]
          simp only [if_true, List.filterMap_cons, hnode]
          rw [List.append_assoc]
          rfl
        · have hkeep : arcKeep tagMap parent a = false := by
            unfold arcKeep
            rw [hf, ht]
            simp [hp]
          have hne : parent ≠ ft := fun h => hp h.symm
          have hInner2 : getDflt
              (if hasKey inner ft then inner else dictInsert ft [] inner)
                parent [] = getDflt inner parent [] := by
            by_cases hk : hasKey inner ft
            · rw [if_pos hk]
            · rw [if_neg hk, getDflt_dictInsert_ne hne]
          rw [hpa, hkeep, getDflt_dictInsert_ne hne, hInner2]
          simp

/-- The builder never reads an arc's order attribute: replacing every
order attribute in one link leaves that link's processing unchanged. -/
theorem processLink_order (secName : Str → Str) (xd : List (Str × List FactPoint))
    (h : List (Str × List (Str × List HierNode))) (lk : PresLink)
    (g : PresArc → Option ℚ) :
    processLink secName xd h
      { lk with arcs := lk.arcs.map (fun a => { a with order := g a }) } =
      processLink secName xd h lk := by
  unfold processLink
  dsimp only
  by_cases hname : secName lk.role = []
  · rw [if_pos hname, if_pos hname]
  · rw [if_neg hname, if_neg hname, List.foldl_map]
    rfl

/-- The whole hierarchy output is unchanged under arbitrary rewriting of
every arc's order attribute. -/
theorem order_attr_ignored (secName : Str → Str) (xd : List (Str × List FactPoint))
    (links : List PresLink) (g : PresArc → Option ℚ) :
    create_hierarchy_json secName xd
      (links.map (fun lk =>
        { lk with arcs := lk.arcs.map (fun a => { a with order := g a }) })) =
      create_hierarchy_json secName xd links := by
  unfold create_hierarchy_json
  rw [List.foldl_map]
  have hstep : (fun (h : List (Str × List (Str × List HierNode))) (lk : PresLink) =>
      processLink secName xd h
        { lk with arcs := lk.arcs.map (fun a => { a with order := g a }) }) =
      fun h lk => processLink secName xd h lk :=
    funext fun h => funext fun lk => processLink_order secName xd h lk g
  rw [hstep]

/-- C7 amended: within a section, the children of each parent are emitted
in the document order of the `presentationArc` elements that produced
them (one child per resolvable arc, appended in arc order); the declared
order attribute is never read, so rewriting every arc's order attribute
arbitrarily leaves the builder's output unchanged. -/
theorem C7_amended :
    (∀ (tagMap : List (Str × Str)) (xd : List (Str × List FactPoint))
        (arcs : List PresArc) (inner : List (Str × List HierNode)) (parent : Str),
      getDflt (arcs.foldl (processArc tagMap xd) inner) parent [] =
        getDflt inner parent [] ++
          (arcs.filter (arcKeep tagMap parent)).filterMap (arcNode tagMap xd)) ∧
    (∀ (secName : Str → Str) (xd : List (Str × List FactPoint))
        (links : List PresLink) (g : PresArc → Option ℚ),
      create_hierarchy_json secName xd
        (links.map (fun lk =>
          { lk with arcs := lk.arcs.map (fun a => { a with order := g a }) })) =
        create_hierarchy_json secName xd links) :=
  ⟨children_doc_order, order_attr_ignored⟩

end DimiKensho
